import Mathlib

/-!
# Dining philosophers (3task.go) and chunked domino search (2task1.go, 2task2.go)

A shallow embedding of the Go sources.

* A `Fork` is a `sync.Mutex`; forks are identified by their index in the
  `forks` slice built by `main` (every `forks[i] = &Fork{}` is a fresh object,
  so two forks are the same object exactly when their indices agree).
* A `Philosopher` is the record `{id, leftFork, rightFork}` of the source.
* The goroutines are modelled by an interleaving step function: one step of
  `main` (the `close(done)`) or one step of one philosopher's `dine`.
  `time.Sleep` and `fmt.Printf` are not modelled beyond the program point
  they occupy.
-/

namespace Dining

/-- Constant `numPhilosophers` of 3task.go. -/
def numPhilosophers : Nat := 5

/-- Struct `Philosopher` of 3task.go; forks are indices into `forks`. -/
structure Philosopher where
  id : Nat
  leftFork : Nat
  rightFork : Nat
deriving DecidableEq

/-- Body of the second loop of `main`: philosopher `i` of a ring of `n`. -/
def mkPhilosopher (n i : Nat) : Philosopher :=
  { id := i, leftFork := i, rightFork := (i + 1) % n }

/-- Slice `philosophers` built by `main`, for a ring of `n`. The source has no
check of the ring size and no error path, so this is a total function. It
stands for the program only when `n ≥ 1`: with the constant 0 the expression
`(i+1)%numPhilosophers` is a division by a constant zero, which the Go compiler
refuses. -/
def philosophers (n : Nat) : List Philosopher :=
  (List.range n).map (mkPhilosopher n)

/-- Fork locked first by `eat`: the parity branch of the source. -/
def firstFork (p : Philosopher) : Nat :=
  if p.id % 2 = 0 then p.leftFork else p.rightFork

/-- Fork locked second by `eat`. -/
def secondFork (p : Philosopher) : Nat :=
  if p.id % 2 = 0 then p.rightFork else p.leftFork

/-- The two `Lock` calls of `eat`, in program order. -/
def lockOrder (p : Philosopher) : List Nat :=
  [firstFork p, secondFork p]

/-- Fork shared by philosopher `i` and its successor `(i+1) mod n`: the right
fork of `i`, which is the left fork of the successor. -/
def sharedFork (n i : Nat) : Nat :=
  (mkPhilosopher n i).rightFork

/-- Position of fork `f` among the `Lock` calls of `eat`: 0 for the first, 1
for the second (and 2 for a fork `eat` does not lock). -/
def lockPosition (p : Philosopher) (f : Nat) : Nat :=
  (lockOrder p).indexOf f

/-- Program points of `dine` (with `think` and `eat` inlined).
`top` is the `select`; `thinking` is inside `think`; `lockFirst` and
`lockSecond` are the two `Lock` calls of `eat`; `eating` is the print and sleep
of `eat`; `unlockLeft`, `unlockRight` are the two `Unlock` calls; `stopped` is
after `return`. -/
inductive PC where
  | top
  | thinking
  | lockFirst
  | lockSecond
  | eating
  | unlockLeft
  | unlockRight
  | stopped
deriving DecidableEq

/-- Global state of the simulation.
`done` is true once the channel `done` is closed, `locked f` is the state of
the mutex of fork `f`, `pc i` is the program point of philosopher `i`.
`holds` and `eatsAfterStop` are observers that never influence a transition:
`holds i f` is set by a successful `Lock` of `f` by `i` and cleared by its
`Unlock`; `eatsAfterStop i` counts the eating phases `i` enters while `done`
is closed. -/
structure State where
  done : Bool
  locked : Nat → Bool
  pc : Nat → PC
  holds : Nat → Nat → Bool
  eatsAfterStop : Nat → Nat

/-- State when the goroutines are launched: `done` open, every mutex free. -/
def State.init : State :=
  { done := false, locked := fun _ => false, pc := fun _ => PC.top,
    holds := fun _ _ => false, eatsAfterStop := fun _ => 0 }

/-- Move philosopher `i` to program point `c`. -/
def State.goto (s : State) (i : Nat) (c : PC) : State :=
  { s with pc := Function.update s.pc i c }

/-- Effect of a successful `Lock` of fork `f` by philosopher `i`. -/
def State.acquire (s : State) (i f : Nat) : State :=
  { s with locked := Function.update s.locked f true,
           holds := Function.update s.holds i (Function.update (s.holds i) f true) }

/-- Effect of `Unlock` of fork `f` by philosopher `i`. -/
def State.release (s : State) (i f : Nat) : State :=
  { s with locked := Function.update s.locked f false,
           holds := Function.update s.holds i (Function.update (s.holds i) f false) }

/-- Record that philosopher `i` enters its eating phase. -/
def State.countEat (s : State) (i : Nat) : State :=
  { s with eatsAfterStop :=
      if s.done then Function.update s.eatsAfterStop i (s.eatsAfterStop i + 1)
      else s.eatsAfterStop }

/-- `Mutex.Lock`: no step while the mutex is locked (the caller blocks). -/
def lockFork (s : State) (i f : Nat) : Option State :=
  if s.locked f then none else some (s.acquire i f)

/-- `Mutex.Unlock`: unlocking a free mutex is a fatal runtime error, which is
modelled as having no step. -/
def unlockFork (s : State) (i f : Nat) : Option State :=
  if s.locked f then some (s.release i f) else none

/-- One step of `p.dine`; `none` when the philosopher cannot move. -/
def philStep (p : Philosopher) (s : State) : Option State :=
  match s.pc p.id with
  | PC.top => if s.done then some (s.goto p.id PC.stopped) else some (s.goto p.id PC.thinking)
  | PC.thinking => some (s.goto p.id PC.lockFirst)
  | PC.lockFirst => (lockFork s p.id (firstFork p)).map (fun t => t.goto p.id PC.lockSecond)
  | PC.lockSecond =>
      (lockFork s p.id (secondFork p)).map (fun t => (t.goto p.id PC.eating).countEat p.id)
  | PC.eating => some (s.goto p.id PC.unlockLeft)
  | PC.unlockLeft => (unlockFork s p.id p.leftFork).map (fun t => t.goto p.id PC.unlockRight)
  | PC.unlockRight => (unlockFork s p.id p.rightFork).map (fun t => t.goto p.id PC.top)
  | PC.stopped => none

/-- Who moves: `main` (closing `done`) or the goroutine of philosopher `i`. -/
inductive Actor where
  | controller
  | philosopher (i : Nat)
deriving DecidableEq

/-- One step of the whole simulation for a ring of `n`. -/
def step (n : Nat) (s : State) : Actor → Option State
  | Actor.controller => if s.done then none else some { s with done := true }
  | Actor.philosopher i =>
      match (philosophers n)[i]? with
      | some p => philStep p s
      | none => none

/-- Run a schedule from a state; `none` if some scheduled actor cannot move. -/
def run (n : Nat) (s : State) : List Actor → Option State
  | [] => some s
  | a :: rest =>
      match step n s a with
      | some t => run n t rest
      | none => none

/-- States reachable from the initial state by steps of the simulation. -/
inductive Reachable (n : Nat) : State → Prop where
  | init : Reachable n State.init
  | step {s t : State} (a : Actor) : Reachable n s → step n s a = some t → Reachable n t

/-- Philosopher `i` is blocked in a `Lock` on a fork held by another philosopher. -/
def Blocked (n : Nat) (s : State) (i : Nat) : Prop :=
  (s.pc i = PC.lockFirst ∧ ∃ q, q ≠ i ∧ s.holds q (firstFork (mkPhilosopher n i)) = true) ∨
  (s.pc i = PC.lockSecond ∧ ∃ q, q ≠ i ∧ s.holds q (secondFork (mkPhilosopher n i)) = true)

/-- Forks philosopher `i` has locked and not yet unlocked when it stands at
program point `c`, as read off the text of `eat`. -/
def heldAt (n i : Nat) (c : PC) (f : Nat) : Prop :=
  match c with
  | PC.lockSecond => f = firstFork (mkPhilosopher n i)
  | PC.eating => f = i ∨ f = (i + 1) % n
  | PC.unlockLeft => f = i ∨ f = (i + 1) % n
  | PC.unlockRight => f = (i + 1) % n
  | _ => False

/-- Rank of a fork: every philosopher locks a fork of lower rank first. -/
def rank (n f : Nat) : Nat :=
  if f % 2 = 1 then 2 else if f = 0 ∧ n % 2 = 1 then 1 else 0

/-- Inductive invariant of the simulation. -/
structure Inv (n : Nat) (s : State) : Prop where
  held : ∀ i f, s.holds i f = true ↔ heldAt n i (s.pc i) f
  lockedIff : ∀ f, s.locked f = true ↔ ∃ i, s.holds i f = true
  unique : ∀ i j f, s.holds i f = true → s.holds j f = true → i = j
  idle : ∀ i, n ≤ i → s.pc i = PC.top
  eats : ∀ i, s.eatsAfterStop i ≤ 1
  eatsOne : ∀ i, s.eatsAfterStop i = 1 →
    s.done = true ∧ s.pc i ≠ PC.thinking ∧ s.pc i ≠ PC.lockFirst ∧ s.pc i ≠ PC.lockSecond

/-- A schedule of the program's ring of five: philosophers 0, 1 and 3 think
and lock their first fork, philosophers 2 and 4 think and reach their first
`Lock`, then `main` closes `done`. -/
def sampleSchedule : List Actor :=
  [Actor.philosopher 0, Actor.philosopher 0, Actor.philosopher 0,
   Actor.philosopher 1, Actor.philosopher 1, Actor.philosopher 1,
   Actor.philosopher 2, Actor.philosopher 2,
   Actor.philosopher 3, Actor.philosopher 3, Actor.philosopher 3,
   Actor.philosopher 4, Actor.philosopher 4,
   Actor.controller]

/-- State reached by `sampleSchedule`. -/
def sampleState : State :=
  (run numPhilosophers State.init sampleSchedule).getD State.init

end Dining

namespace Dominoes

/-- Struct `Domino` of 2task1.go and 2task2.go. -/
structure Domino where
  Left : Int
  Right : Int
deriving DecidableEq

/-- Function `generateFullSet`: the outer loop runs `i` over `0..maxValue`, the
inner loop runs `j` over `i..maxValue`; nothing is appended for a negative
`maxValue`. Go's `int` is modelled by `Int` and slice indices by `Nat`: every
index the program computes is at most `len(fullSet)`, so none wraps. -/
def generateFullSet (maxValue : Int) : List Domino :=
  (List.range (maxValue + 1).toNat).foldl
    (fun fullSet i =>
      (List.range' i ((maxValue + 1).toNat - i)).foldl
        (fun acc j => acc ++ [({ Left := (i : Int), Right := (j : Int) } : Domino)]) fullSet)
    []

/-- First loop of `findMissingDominos`: the map `existingMap`, as its lookup
function (an absent key reads as `false`). -/
def existingMap (existingSet : List Domino) : Domino → Bool :=
  existingSet.foldl (fun m domino => Function.update m domino true) (fun _ => false)

/-- Function `findMissingDominos` (the `time.Sleep` of 2task2.go left out). -/
def findMissingDominos (existingSet fullSet : List Domino) : List Domino :=
  fullSet.foldl
    (fun missingDominos domino =>
      if !(existingMap existingSet domino) then missingDominos ++ [domino] else missingDominos)
    []

/-- Slice expression `s[lo:hi]`; `none` stands for the out-of-range panic. -/
def slice (s : List Domino) (lo hi : Nat) : Option (List Domino) :=
  if lo ≤ hi ∧ hi ≤ s.length then some ((s.take hi).drop lo) else none

/-- Variable `startIndex` of goroutine `i`. -/
def startIndex (len numGoroutines i : Nat) : Nat :=
  i * (len / numGoroutines)

/-- Variable `endIndex` of goroutine `i`, with the adjustment of the last one. -/
def endIndex (len numGoroutines i : Nat) : Nat :=
  if i = numGoroutines - 1 then len else (i + 1) * (len / numGoroutines)

/-- Goroutines whose index range contains index `k`. -/
def owners (len numGoroutines k : Nat) : List Nat :=
  (List.range numGoroutines).filter
    (fun i => startIndex len numGoroutines i ≤ k ∧ k < endIndex len numGoroutines i)

/-- All the ways the channel can deliver what the goroutines send: any order
of the dominoes sent, each delivered once. -/
def Collected (sent : List (List Domino)) (missingDominos : List Domino) : Prop :=
  missingDominos.Perm sent.flatten

namespace Task1

/-- Constant `numGoroutines` of 2task1.go. -/
def numGoroutines : Nat := 3

/-- Inner loop of the goroutine of 2task1.go: linear search with `break`. -/
def found (existingSet : List Domino) (domino : Domino) : Bool :=
  existingSet.any (fun existing =>
    decide (existing.Left = domino.Left) && decide (existing.Right = domino.Right))

/-- Goroutine `i` of `processWithConcurrency` in 2task1.go: the dominoes it
sends to the channel, in order. -/
def worker (existingSet fullSet : List Domino) (i : Nat) : Option (List Domino) :=
  (slice fullSet (startIndex fullSet.length numGoroutines i)
      (endIndex fullSet.length numGoroutines i)).map
    (fun chunk => chunk.foldl
      (fun sent domino => if !(found existingSet domino) then sent ++ [domino] else sent) [])

/-- Function `processWithConcurrency` of 2task1.go: what each goroutine sends. -/
def processWithConcurrency (existingSet : List Domino) (maxValue : Int) :
    Option (List (List Domino)) :=
  (List.range numGoroutines).mapM (worker existingSet (generateFullSet maxValue))

end Task1

namespace Task2

/-- Constant `numGoroutines` of 2task2.go. -/
def numGoroutines : Nat := 4

/-- Goroutine `i` of `processWithConcurrency` in 2task2.go: the dominoes it
sends to the channel, in order. -/
def worker (existingSet fullSet : List Domino) (i : Nat) : Option (List Domino) :=
  (slice fullSet (startIndex fullSet.length numGoroutines i)
      (endIndex fullSet.length numGoroutines i)).map
    (fun chunk => findMissingDominos existingSet chunk)

/-- Function `processWithConcurrency` of 2task2.go: what each goroutine sends. -/
def processWithConcurrency (existingSet : List Domino) (maxValue : Int) :
    Option (List (List Domino)) :=
  (List.range numGoroutines).mapM (worker existingSet (generateFullSet maxValue))

end Task2

end Dominoes

namespace Dining

/-! ### Elementary facts about the state updates -/

@[simp]
theorem goto_pc (s : State) (i j : Nat) (c : PC) :
    (s.goto i c).pc j = if j = i then c else s.pc j := by
  simp [State.goto, Function.update_apply]

@[simp]
theorem goto_holds (s : State) (i : Nat) (c : PC) : (s.goto i c).holds = s.holds := rfl

@[simp]
theorem goto_locked (s : State) (i : Nat) (c : PC) : (s.goto i c).locked = s.locked := rfl

@[simp]
theorem goto_done (s : State) (i : Nat) (c : PC) : (s.goto i c).done = s.done := rfl

@[simp]
theorem goto_eats (s : State) (i : Nat) (c : PC) :
    (s.goto i c).eatsAfterStop = s.eatsAfterStop := rfl

@[simp]
theorem acquire_pc (s : State) (i f : Nat) : (s.acquire i f).pc = s.pc := rfl

@[simp]
theorem acquire_done (s : State) (i f : Nat) : (s.acquire i f).done = s.done := rfl

@[simp]
theorem acquire_eats (s : State) (i f : Nat) :
    (s.acquire i f).eatsAfterStop = s.eatsAfterStop := rfl

@[simp]
theorem acquire_locked (s : State) (i f g : Nat) :
    (s.acquire i f).locked g = if g = f then true else s.locked g := by
  simp [State.acquire, Function.update_apply]

@[simp]
theorem acquire_holds (s : State) (i f j g : Nat) :
    (s.acquire i f).holds j g = if j = i ∧ g = f then true else s.holds j g := by
  by_cases hj : j = i
  · subst hj
    by_cases hg : g = f <;> simp [State.acquire, Function.update_apply, hg]
  · simp [State.acquire, Function.update_apply, hj]

@[simp]
theorem release_pc (s : State) (i f : Nat) : (s.release i f).pc = s.pc := rfl

@[simp]
theorem release_done (s : State) (i f : Nat) : (s.release i f).done = s.done := rfl

@[simp]
theorem release_eats (s : State) (i f : Nat) :
    (s.release i f).eatsAfterStop = s.eatsAfterStop := rfl

@[simp]
theorem release_locked (s : State) (i f g : Nat) :
    (s.release i f).locked g = if g = f then false else s.locked g := by
  simp [State.release, Function.update_apply]

@[simp]
theorem release_holds (s : State) (i f j g : Nat) :
    (s.release i f).holds j g = if j = i ∧ g = f then false else s.holds j g := by
  by_cases hj : j = i
  · subst hj
    by_cases hg : g = f <;> simp [State.release, Function.update_apply, hg]
  · simp [State.release, Function.update_apply, hj]

@[simp]
theorem countEat_pc (s : State) (i : Nat) : (s.countEat i).pc = s.pc := rfl

@[simp]
theorem countEat_done (s : State) (i : Nat) : (s.countEat i).done = s.done := rfl

@[simp]
theorem countEat_holds (s : State) (i : Nat) : (s.countEat i).holds = s.holds := rfl

@[simp]
theorem countEat_locked (s : State) (i : Nat) : (s.countEat i).locked = s.locked := rfl

theorem countEat_eats (s : State) (i j : Nat) :
    (s.countEat i).eatsAfterStop j =
      if s.done = true ∧ j = i then s.eatsAfterStop i + 1 else s.eatsAfterStop j := by
  by_cases hd : s.done = true
  · by_cases hj : j = i
    · subst hj; simp [State.countEat, hd]
    · simp [State.countEat, hd, Function.update_apply, hj]
  · simp [State.countEat, hd]

theorem philosophers_get (n i : Nat) (h : i < n) :
    (philosophers n)[i]? = some (mkPhilosopher n i) := by
  simp [philosophers, List.getElem?_map, List.getElem?_range h]

theorem philosophers_get_none (n i : Nat) (h : n ≤ i) : (philosophers n)[i]? = none := by
  simp [philosophers, h]

theorem step_philosopher (n i : Nat) (s : State) (h : i < n) :
    step n s (Actor.philosopher i) = philStep (mkPhilosopher n i) s := by
  simp [step, philosophers_get n i h]

theorem step_philosopher_none (n i : Nat) (s : State) (h : n ≤ i) :
    step n s (Actor.philosopher i) = none := by
  simp [step, philosophers_get_none n i h]

theorem succ_mod_ne (n i : Nat) (hn : 2 ≤ n) (hi : i < n) : (i + 1) % n ≠ i := by
  by_cases h : i + 1 < n
  · rw [Nat.mod_eq_of_lt h]; omega
  · have : i + 1 = n := by omega
    rw [this, Nat.mod_self]; omega

theorem rank_first_lt_second (n i : Nat) (hn : 2 ≤ n) (hi : i < n) :
    rank n (firstFork (mkPhilosopher n i)) < rank n (secondFork (mkPhilosopher n i)) := by
  by_cases h : i + 1 < n
  · simp only [rank, firstFork, secondFork, mkPhilosopher, Nat.mod_eq_of_lt h]
    split_ifs <;> omega
  · have h1 : i + 1 = n := by omega
    simp only [rank, firstFork, secondFork, mkPhilosopher, h1, Nat.mod_self]
    split_ifs <;> first | omega | contradiction

/-! ### The invariant is inductive -/

theorem inv_init (n : Nat) : Inv n State.init where
  held := by intro i f; simp [State.init, heldAt]
  lockedIff := by intro f; simp [State.init]
  unique := by intro i j f h; simp [State.init] at h
  idle := by intro i _; rfl
  eats := by intro i; simp [State.init]
  eatsOne := by intro i h; simp [State.init] at h

theorem inv_close (n : Nat) (s : State) (h : Inv n s) : Inv n { s with done := true } where
  held := h.held
  lockedIff := h.lockedIff
  unique := h.unique
  idle := h.idle
  eats := h.eats
  eatsOne := by
    intro i hi
    exact ⟨rfl, (h.eatsOne i hi).2⟩

theorem inv_goto (n : Nat) (s : State) (i : Nat) (c : PC) (h : Inv n s) (hi : i < n)
    (hc : ∀ f, heldAt n i c f ↔ heldAt n i (s.pc i) f)
    (he : s.eatsAfterStop i = 1 → c ≠ PC.thinking ∧ c ≠ PC.lockFirst ∧ c ≠ PC.lockSecond) :
    Inv n (s.goto i c) where
  held := by
    intro j f
    by_cases hj : j = i
    · subst hj; simp [hc, h.held]
    · simp [hj, h.held]
  lockedIff := by intro f; simpa using h.lockedIff f
  unique := by intro j k f; simpa using h.unique j k f
  idle := by
    intro j hj
    have : j ≠ i := by omega
    simpa [this] using h.idle j hj
  eats := by intro j; simpa using h.eats j
  eatsOne := by
    intro j hj
    simp only [goto_eats] at hj
    by_cases hji : j = i
    · subst hji
      simpa using ⟨(h.eatsOne j hj).1, he hj⟩
    · simpa [hji] using h.eatsOne j hj

theorem inv_lock (n : Nat) (s : State) (i f : Nat) (c : PC) (h : Inv n s) (hi : i < n)
    (hf : s.locked f = false)
    (hc : ∀ g, heldAt n i c g ↔ (heldAt n i (s.pc i) g ∨ g = f))
    (he : s.eatsAfterStop i = 1 → c ≠ PC.thinking ∧ c ≠ PC.lockFirst ∧ c ≠ PC.lockSecond) :
    Inv n ((s.acquire i f).goto i c) where
  held := by
    intro j g
    by_cases hj : j = i
    · subst hj
      by_cases hg : g = f
      · simp [hc, hg]
      · simp [hc, hg, h.held]
    · simp [hj, h.held]
  lockedIff := by
    intro g
    by_cases hg : g = f
    · subst hg
      simp only [goto_locked, acquire_locked, if_true, goto_holds, acquire_holds, true_iff]
      exact ⟨i, by simp⟩
    · simp [hg, h.lockedIff]
  unique := by
    have hfree : ∀ j, s.holds j f = false := by
      intro j
      by_contra hh
      have : s.locked f = true := (h.lockedIff f).2 ⟨j, by simpa using hh⟩
      simp [hf] at this
    intro j k g hj hk
    simp only [goto_holds, acquire_holds] at hj hk
    by_cases hg : g = f
    · subst hg
      have hj1 : j = i := by
        by_contra hne
        simp [hne, hfree] at hj
      have hk1 : k = i := by
        by_contra hne
        simp [hne, hfree] at hk
      omega
    · simp only [hg, and_false, if_false] at hj hk
      exact h.unique j k g hj hk
  idle := by
    intro j hj
    have : j ≠ i := by omega
    simpa [this] using h.idle j hj
  eats := by intro j; simpa using h.eats j
  eatsOne := by
    intro j hj
    simp only [goto_eats, acquire_eats] at hj
    by_cases hji : j = i
    · subst hji
      simpa using ⟨(h.eatsOne j hj).1, he hj⟩
    · simpa [hji] using h.eatsOne j hj

theorem inv_unlock (n : Nat) (s : State) (i f : Nat) (c : PC) (h : Inv n s) (hi : i < n)
    (hf : s.holds i f = true)
    (hc : ∀ g, heldAt n i c g ↔ (heldAt n i (s.pc i) g ∧ g ≠ f))
    (he : s.eatsAfterStop i = 1 → c ≠ PC.thinking ∧ c ≠ PC.lockFirst ∧ c ≠ PC.lockSecond) :
    Inv n ((s.release i f).goto i c) where
  held := by
    intro j g
    by_cases hj : j = i
    · subst hj
      by_cases hg : g = f
      · simp [hc, hg]
      · simp [hc, hg, h.held]
    · simp [hj, h.held]
  lockedIff := by
    intro g
    by_cases hg : g = f
    · subst hg
      simp only [goto_locked, release_locked, if_true, goto_holds, release_holds]
      constructor
      · intro hh; simp at hh
      · rintro ⟨j, hj⟩
        by_cases hji : j = i
        · simp [hji] at hj
        · simp only [hji, false_and, if_false] at hj
          exact absurd (h.unique j i g hj hf) hji
    · simp [hg, h.lockedIff]
  unique := by
    intro j k g hj hk
    simp only [goto_holds, release_holds] at hj hk
    have hj1 : s.holds j g = true := by
      by_cases hc1 : j = i ∧ g = f
      · simp [hc1] at hj
      · simpa [hc1] using hj
    have hk1 : s.holds k g = true := by
      by_cases hc1 : k = i ∧ g = f
      · simp [hc1] at hk
      · simpa [hc1] using hk
    exact h.unique j k g hj1 hk1
  idle := by
    intro j hj
    have : j ≠ i := by omega
    simpa [this] using h.idle j hj
  eats := by intro j; simpa using h.eats j
  eatsOne := by
    intro j hj
    simp only [goto_eats, release_eats] at hj
    by_cases hji : j = i
    · subst hji
      simpa using ⟨(h.eatsOne j hj).1, he hj⟩
    · simpa [hji] using h.eatsOne j hj

theorem inv_countEat (n : Nat) (s : State) (i : Nat) (h : Inv n s)
    (h0 : s.eatsAfterStop i = 0)
    (hpc : s.pc i ≠ PC.thinking ∧ s.pc i ≠ PC.lockFirst ∧ s.pc i ≠ PC.lockSecond) :
    Inv n (s.countEat i) where
  held := h.held
  lockedIff := h.lockedIff
  unique := h.unique
  idle := h.idle
  eats := by
    intro j
    rw [countEat_eats]
    split_ifs with hc
    · omega
    · exact h.eats j
  eatsOne := by
    intro j hj
    rw [countEat_eats] at hj
    split_ifs at hj with hc
    · obtain ⟨hd, rfl⟩ := hc
      exact ⟨hd, hpc⟩
    · exact h.eatsOne j hj

theorem inv_philStep (n i : Nat) (s t : State) (hn : 2 ≤ n) (hi : i < n) (h : Inv n s)
    (hs : philStep (mkPhilosopher n i) s = some t) : Inv n t := by
  have hne := succ_mod_ne n i hn hi
  have hid : (mkPhilosopher n i).id = i := rfl
  have hl : (mkPhilosopher n i).leftFork = i := rfl
  have hr : (mkPhilosopher n i).rightFork = (i + 1) % n := rfl
  unfold philStep at hs
  rw [hid] at hs
  cases hpc : s.pc i <;> rw [hpc] at hs <;> simp only at hs
  case top =>
    by_cases hd : s.done = true
    · rw [if_pos hd] at hs
      cases hs
      exact inv_goto n s i PC.stopped h hi (by simp [heldAt, hpc]) (by simp)
    · rw [if_neg hd] at hs
      cases hs
      refine inv_goto n s i PC.thinking h hi (by simp [heldAt, hpc]) ?_
      intro h1
      exact absurd (h.eatsOne i h1).1 hd
  case thinking =>
    cases hs
    refine inv_goto n s i PC.lockFirst h hi (by simp [heldAt, hpc]) ?_
    intro h1
    exact absurd hpc (h.eatsOne i h1).2.1
  case lockFirst =>
    unfold lockFork at hs
    by_cases hk : s.locked (firstFork (mkPhilosopher n i)) = true
    · simp [hk] at hs
    · have hk0 : s.locked (firstFork (mkPhilosopher n i)) = false := by simpa using hk
      simp only [hk0, Bool.false_eq_true, if_false, Option.map_some', Option.some.injEq] at hs
      subst hs
      refine inv_lock n s i _ PC.lockSecond h hi (by simpa using hk) (by simp [heldAt, hpc]) ?_
      intro h1
      exact absurd hpc (h.eatsOne i h1).2.2.1
  case lockSecond =>
    unfold lockFork at hs
    by_cases hk : s.locked (secondFork (mkPhilosopher n i)) = true
    · simp [hk] at hs
    · have hk0 : s.locked (secondFork (mkPhilosopher n i)) = false := by simpa using hk
      simp only [hk0, Bool.false_eq_true, if_false, Option.map_some', Option.some.injEq] at hs
      subst hs
      have h0 : s.eatsAfterStop i = 0 := by
        have h1 := h.eats i
        have h2 : s.eatsAfterStop i ≠ 1 := fun h1 => absurd hpc (h.eatsOne i h1).2.2.2
        omega
      refine inv_countEat n _ i ?_ (by simpa using h0) (by simp)
      refine inv_lock n s i _ PC.eating h hi (by simpa using hk) ?_ (by simp)
      intro g
      simp only [heldAt, hpc, firstFork, secondFork, hid, hl, hr]
      split_ifs <;> tauto
  case eating =>
    cases hs
    exact inv_goto n s i PC.unlockLeft h hi (by simp [heldAt, hpc]) (by simp)
  case unlockLeft =>
    have hh : s.holds i i = true := (h.held i i).2 (by simp [heldAt, hpc])
    have hk : s.locked i = true := (h.lockedIff i).2 ⟨i, hh⟩
    simp only [unlockFork, hl, hk, if_true, Option.map_some', Option.some.injEq] at hs
    subst hs
    refine inv_unlock n s i i PC.unlockRight h hi hh ?_ (by simp)
    intro g
    simp only [heldAt, hpc]
    constructor
    · intro hg; subst hg; exact ⟨Or.inr rfl, hne⟩
    · rintro ⟨hg | hg, hg2⟩
      · exact absurd hg hg2
      · exact hg
  case unlockRight =>
    have hh : s.holds i ((i + 1) % n) = true := (h.held i _).2 (by simp [heldAt, hpc])
    have hk : s.locked ((i + 1) % n) = true := (h.lockedIff _).2 ⟨i, hh⟩
    simp only [unlockFork, hr, hk, if_true, Option.map_some', Option.some.injEq] at hs
    subst hs
    refine inv_unlock n s i _ PC.top h hi hh ?_ (by simp)
    intro g
    simp only [heldAt, hpc]
    tauto
  case stopped => cases hs

theorem inv_step (n : Nat) (s t : State) (a : Actor) (hn : 2 ≤ n) (h : Inv n s)
    (hs : step n s a = some t) : Inv n t := by
  cases a with
  | controller =>
    simp only [step] at hs
    by_cases hd : s.done = true
    · simp [hd] at hs
    · have hd0 : s.done = false := by simpa using hd
      simp only [hd0, Bool.false_eq_true, if_false, Option.some.injEq] at hs
      subst hs
      exact inv_close n s h
  | philosopher i =>
    by_cases hi : i < n
    · rw [step_philosopher n i s hi] at hs
      exact inv_philStep n i s t hn hi h hs
    · rw [step_philosopher_none n i s (by omega)] at hs
      cases hs

theorem inv_reachable (n : Nat) (s : State) (hn : 2 ≤ n) (h : Reachable n s) : Inv n s := by
  induction h with
  | init => exact inv_init n
  | step a _ hs ih => exact inv_step n _ _ a hn ih hs

theorem run_reachable (n : Nat) (sched : List Actor) (s t : State) (h : Reachable n s)
    (hr : run n s sched = some t) : Reachable n t := by
  induction sched generalizing s with
  | nil =>
    simp only [run, Option.some.injEq] at hr
    subst hr
    exact h
  | cons a rest ih =>
    simp only [run] at hr
    cases hst : step n s a with
    | none => simp [hst] at hr
    | some u =>
      rw [hst] at hr
      exact ih u (Reachable.step a h hst) hr

/-! ### Shape of a philosopher step -/

theorem philStep_pc (p : Philosopher) (s t : State) (hs : philStep p s = some t) :
    (s.pc p.id = PC.top ∧ s.done = true ∧ t.pc p.id = PC.stopped ∧
        t.holds = s.holds ∧ t.locked = s.locked) ∨
    (s.pc p.id = PC.top ∧ s.done = false ∧ t.pc p.id = PC.thinking) ∨
    (s.pc p.id = PC.thinking ∧ t.pc p.id = PC.lockFirst ∧
        t.holds = s.holds ∧ t.locked = s.locked) ∨
    (s.pc p.id = PC.lockFirst ∧ t.pc p.id = PC.lockSecond) ∨
    (s.pc p.id = PC.lockSecond ∧ t.pc p.id = PC.eating) ∨
    (s.pc p.id = PC.eating ∧ t.pc p.id = PC.unlockLeft) ∨
    (s.pc p.id = PC.unlockLeft ∧ t.pc p.id = PC.unlockRight) ∨
    (s.pc p.id = PC.unlockRight ∧ t.pc p.id = PC.top) := by
  unfold philStep at hs
  cases hpc : s.pc p.id <;> rw [hpc] at hs <;> simp only at hs
  case top =>
    by_cases hd : s.done = true
    · rw [if_pos hd] at hs; cases hs; simp [hd]
    · rw [if_neg hd] at hs; cases hs; simp [hd]
  case thinking => cases hs; simp
  case lockFirst =>
    unfold lockFork at hs
    split_ifs at hs
    · cases hs
    · cases hs; simp
  case lockSecond =>
    unfold lockFork at hs
    split_ifs at hs
    · cases hs
    · cases hs; simp
  case eating => cases hs; simp
  case unlockLeft =>
    unfold unlockFork at hs
    split_ifs at hs
    · cases hs; simp
    · cases hs
  case unlockRight =>
    unfold unlockFork at hs
    split_ifs at hs
    · cases hs; simp
    · cases hs
  case stopped => cases hs

/-- A philosopher that cannot move is stopped or waits in `Lock` on a locked fork. -/
theorem stuck_cases (n i : Nat) (s : State) (h : Inv n s)
    (hs : philStep (mkPhilosopher n i) s = none) :
    s.pc i = PC.stopped ∨
    (s.pc i = PC.lockFirst ∧ s.locked (firstFork (mkPhilosopher n i)) = true) ∨
    (s.pc i = PC.lockSecond ∧ s.locked (secondFork (mkPhilosopher n i)) = true) := by
  have hid : (mkPhilosopher n i).id = i := rfl
  unfold philStep at hs
  rw [hid] at hs
  cases hpc : s.pc i <;> rw [hpc] at hs <;> simp only at hs
  case top => split_ifs at hs
  case thinking => cases hs
  case lockFirst =>
    unfold lockFork at hs
    split_ifs at hs with hk
    · exact Or.inr (Or.inl ⟨rfl, hk⟩)
    · cases hs
  case lockSecond =>
    unfold lockFork at hs
    split_ifs at hs with hk
    · exact Or.inr (Or.inr ⟨rfl, hk⟩)
    · cases hs
  case eating => cases hs
  case unlockLeft =>
    have hh : s.holds i i = true := (h.held i i).2 (by simp [heldAt, hpc])
    have hk : s.locked i = true := (h.lockedIff i).2 ⟨i, hh⟩
    simp [unlockFork, mkPhilosopher, hk] at hs
  case unlockRight =>
    have hh : s.holds i ((i + 1) % n) = true := (h.held i _).2 (by simp [heldAt, hpc])
    have hk : s.locked ((i + 1) % n) = true := (h.lockedIff _).2 ⟨i, hh⟩
    simp [unlockFork, mkPhilosopher, hk] at hs
  case stopped => exact Or.inl rfl

/-- In a state where no philosopher can move, a fork somebody waits for has
rank at most `2 - k`, for every `k`: so nobody waits. -/
theorem stuck_rank (n : Nat) (s : State) (hn : 2 ≤ n) (h : Inv n s)
    (hstuck : ∀ i, i < n → philStep (mkPhilosopher n i) s = none) (k : Nat) :
    ∀ i, i < n →
      ((s.pc i = PC.lockFirst ∧ s.locked (firstFork (mkPhilosopher n i)) = true →
          rank n (firstFork (mkPhilosopher n i)) + k ≤ 2) ∧
       (s.pc i = PC.lockSecond ∧ s.locked (secondFork (mkPhilosopher n i)) = true →
          rank n (secondFork (mkPhilosopher n i)) + k ≤ 2)) := by
  have hrank : ∀ f, rank n f ≤ 2 := by
    intro f; unfold rank; split_ifs <;> omega
  have holder : ∀ f, s.locked f = true → ∃ q, q < n ∧ s.pc q = PC.lockSecond ∧
      f = firstFork (mkPhilosopher n q) ∧ s.locked (secondFork (mkPhilosopher n q)) = true := by
    intro f hf
    obtain ⟨q, hq⟩ := (h.lockedIff f).1 hf
    have hheld := (h.held q f).1 hq
    have hqn : q < n := by
      by_contra hge
      rw [h.idle q (by omega)] at hheld
      exact hheld
    rcases stuck_cases n q s h (hstuck q hqn) with h1 | h1 | h1
    · rw [h1] at hheld; exact absurd hheld (by simp [heldAt])
    · rw [h1.1] at hheld; exact absurd hheld (by simp [heldAt])
    · refine ⟨q, hqn, h1.1, ?_, h1.2⟩
      rw [h1.1] at hheld
      exact hheld
  induction k with
  | zero =>
    intro i _
    exact ⟨fun _ => hrank _, fun _ => hrank _⟩
  | succ k ih =>
    intro i _
    constructor
    · rintro ⟨_, hl⟩
      obtain ⟨q, hqn, hq1, hq2, hq3⟩ := holder _ hl
      have h1 := (ih q hqn).2 ⟨hq1, hq3⟩
      have h2 := rank_first_lt_second n q hn hqn
      rw [hq2]; omega
    · rintro ⟨_, hl⟩
      obtain ⟨q, hqn, hq1, hq2, hq3⟩ := holder _ hl
      have h1 := (ih q hqn).2 ⟨hq1, hq3⟩
      have h2 := rank_first_lt_second n q hn hqn
      rw [hq2]; omega

theorem stuck_all_stopped (n : Nat) (s : State) (hn : 2 ≤ n) (h : Inv n s)
    (hstuck : ∀ i, i < n → philStep (mkPhilosopher n i) s = none) :
    ∀ i, i < n → s.pc i = PC.stopped := by
  intro i hi
  have hr := stuck_rank n s hn h hstuck 3 i hi
  rcases stuck_cases n i s h (hstuck i hi) with h1 | h1 | h1
  · exact h1
  · have := hr.1 h1; omega
  · have := hr.2 h1; omega

theorem blocked_stuck (n i : Nat) (s : State) (h : Inv n s) (hb : Blocked n s i) :
    philStep (mkPhilosopher n i) s = none ∧ s.pc i ≠ PC.stopped := by
  have hid : (mkPhilosopher n i).id = i := rfl
  rcases hb with ⟨hpc, q, _, hq⟩ | ⟨hpc, q, _, hq⟩
  · have hk : s.locked (firstFork (mkPhilosopher n i)) = true := (h.lockedIff _).2 ⟨q, hq⟩
    refine ⟨?_, by simp [hpc]⟩
    simp [philStep, hid, hpc, lockFork, hk]
  · have hk : s.locked (secondFork (mkPhilosopher n i)) = true := (h.lockedIff _).2 ⟨q, hq⟩
    refine ⟨?_, by simp [hpc]⟩
    simp [philStep, hid, hpc, lockFork, hk]

theorem sampleState_reachable : Reachable numPhilosophers sampleState :=
  run_reachable numPhilosophers sampleSchedule State.init sampleState Reachable.init rfl

/-! ### Deadlock freedom -/

/-- C1. Deadlock freedom: for every ring of `n ≥ 2` philosophers wired as in
`main` and locking in the order of the parity rule of `eat`, no reachable
state has every philosopher blocked on a fork held by another philosopher,
and in every reachable state in which some philosopher has not stopped some
philosopher can take a step. -/
theorem deadlock_freedom (n : Nat) (s : State) (hn : 2 ≤ n) (hr : Reachable n s) :
    (¬ ∀ i, i < n → Blocked n s i) ∧
    ((∃ i, i < n ∧ s.pc i ≠ PC.stopped) →
      ∃ i, i < n ∧ ∃ t, step n s (Actor.philosopher i) = some t) := by
  have h := inv_reachable n s hn hr
  constructor
  · intro hall
    have hstuck : ∀ i, i < n → philStep (mkPhilosopher n i) s = none :=
      fun i hi => (blocked_stuck n i s h (hall i hi)).1
    have h0 := stuck_all_stopped n s hn h hstuck 0 (by omega)
    exact (blocked_stuck n 0 s h (hall 0 (by omega))).2 h0
  · rintro ⟨i, hi, hpc⟩
    by_contra hno
    have hstuck : ∀ j, j < n → philStep (mkPhilosopher n j) s = none := by
      intro j hj
      cases hst : philStep (mkPhilosopher n j) s with
      | none => rfl
      | some t =>
        exact absurd ⟨j, hj, t, by rw [step_philosopher n j s hj, hst]⟩ hno
    exact hpc (stuck_all_stopped n s hn h hstuck i hi)

/-- Witness of `deadlock_freedom` in the program's ring of five, at the state
where philosophers 0, 1 and 3 hold their first fork and `done` is closed. -/
theorem deadlock_freedom_witness :
    (¬ ∀ i, i < numPhilosophers → Blocked numPhilosophers sampleState i) ∧
    ((∃ i, i < numPhilosophers ∧ sampleState.pc i ≠ PC.stopped) →
      ∃ i, i < numPhilosophers ∧
        ∃ t, step numPhilosophers sampleState (Actor.philosopher i) = some t) :=
  deadlock_freedom numPhilosophers sampleState (by decide) sampleState_reachable

/-! ### Acquisition order -/

/-- C2. Acquisition-order rule: in every call of `eat` from a reachable state,
the first `Lock` of a philosopher with an even id takes its left fork and the
first `Lock` of a philosopher with an odd id takes its right fork (it holds
nothing before and exactly that fork after); the second `Lock` takes the other
fork; and the eating phase is entered only by the second `Lock`, with both
forks held. -/
theorem acquisition_order (n i : Nat) (s t : State) (hn : 2 ≤ n) (hi : i < n)
    (hr : Reachable n s) (hs : step n s (Actor.philosopher i) = some t) :
    (s.pc i = PC.lockFirst →
      (∀ f, s.holds i f = false) ∧ t.pc i = PC.lockSecond ∧
      ((mkPhilosopher n i).id % 2 = 0 →
        ∀ f, t.holds i f = true ↔ f = (mkPhilosopher n i).leftFork) ∧
      ((mkPhilosopher n i).id % 2 = 1 →
        ∀ f, t.holds i f = true ↔ f = (mkPhilosopher n i).rightFork)) ∧
    (s.pc i = PC.lockSecond →
      t.pc i = PC.eating ∧
      ((mkPhilosopher n i).id % 2 = 0 →
        s.holds i (mkPhilosopher n i).rightFork = false ∧
        t.holds i (mkPhilosopher n i).rightFork = true) ∧
      ((mkPhilosopher n i).id % 2 = 1 →
        s.holds i (mkPhilosopher n i).leftFork = false ∧
        t.holds i (mkPhilosopher n i).leftFork = true) ∧
      (∀ f, t.holds i f = true ↔
        f = (mkPhilosopher n i).leftFork ∨ f = (mkPhilosopher n i).rightFork)) ∧
    (t.pc i = PC.eating → s.pc i = PC.lockSecond) := by
  have h := inv_reachable n s hn hr
  have ht := inv_step n s t _ hn h hs
  have hne := succ_mod_ne n i hn hi
  rw [step_philosopher n i s hi] at hs
  have hpc := philStep_pc _ s t hs
  have hid : (mkPhilosopher n i).id = i := rfl
  have hl : (mkPhilosopher n i).leftFork = i := rfl
  have hrt : (mkPhilosopher n i).rightFork = (i + 1) % n := rfl
  rw [hid] at hpc
  simp only [hid, hl, hrt]
  refine ⟨?_, ?_, ?_⟩
  · intro h1
    have htpc : t.pc i = PC.lockSecond := by
      rcases hpc with c | c | c | c | c | c | c | c <;> simp_all
    refine ⟨?_, htpc, ?_, ?_⟩
    · intro f
      have := (h.held i f).not
      simpa [h1, heldAt] using this
    · intro he f
      have := ht.held i f
      simpa [htpc, heldAt, firstFork, mkPhilosopher, he] using this
    · intro ho f
      have := ht.held i f
      have ho2 : ¬ i % 2 = 0 := by omega
      simpa [htpc, heldAt, firstFork, mkPhilosopher, ho2] using this
  · intro h1
    have htpc : t.pc i = PC.eating := by
      rcases hpc with c | c | c | c | c | c | c | c <;> simp_all
    refine ⟨htpc, ?_, ?_, ?_⟩
    · intro he
      constructor
      · have := (h.held i ((i + 1) % n)).not
        simpa [h1, heldAt, firstFork, mkPhilosopher, he, hne] using this
      · exact (ht.held i _).2 (by simp [htpc, heldAt])
    · intro ho
      have ho2 : ¬ i % 2 = 0 := by omega
      constructor
      · have := (h.held i i).not
        simpa [h1, heldAt, firstFork, mkPhilosopher, ho2, Ne.symm hne] using this
      · exact (ht.held i _).2 (by simp [htpc, heldAt])
    · intro f
      have := ht.held i f
      simpa [htpc, heldAt] using this
  · intro h1
    rcases hpc with c | c | c | c | c | c | c | c <;> simp_all

/-- Witness of `acquisition_order`: philosopher 0 of the ring of five, standing
at its second `Lock` in `sampleState`, takes its right fork 1 and eats. -/
theorem acquisition_order_witness :
    2 ≤ numPhilosophers ∧ 0 < numPhilosophers ∧ Reachable numPhilosophers sampleState ∧
    step numPhilosophers sampleState (Actor.philosopher 0) =
      some (((sampleState.acquire 0 1).goto 0 PC.eating).countEat 0) ∧
    (((sampleState.acquire 0 1).goto 0 PC.eating).countEat 0).pc 0 = PC.eating ∧
    sampleState.holds 0 1 = false ∧
    (((sampleState.acquire 0 1).goto 0 PC.eating).countEat 0).holds 0 1 = true :=
  ⟨by decide, by decide, sampleState_reachable, rfl,
    ((acquisition_order numPhilosophers 0 sampleState
      (((sampleState.acquire 0 1).goto 0 PC.eating).countEat 0)
      (by decide) (by decide) sampleState_reachable rfl).2.1 rfl).1,
    (((acquisition_order numPhilosophers 0 sampleState
      (((sampleState.acquire 0 1).goto 0 PC.eating).countEat 0)
      (by decide) (by decide) sampleState_reachable rfl).2.1 rfl).2.1 rfl).1,
    (((acquisition_order numPhilosophers 0 sampleState
      (((sampleState.acquire 0 1).goto 0 PC.eating).countEat 0)
      (by decide) (by decide) sampleState_reachable rfl).2.1 rfl).2.1 rfl).2⟩

/-! ### Topology -/

theorem succ_mod_eq (n i : Nat) (hi : i < n) :
    (i + 1) % n = if i + 1 < n then i + 1 else 0 := by
  split_ifs with h
  · exact Nat.mod_eq_of_lt h
  · have : i + 1 = n := by omega
    rw [this, Nat.mod_self]

theorem pred_mod_eq (n f : Nat) (hf : f < n) :
    (f + n - 1) % n = if f = 0 then n - 1 else f - 1 := by
  split_ifs with h
  · subst h
    rw [Nat.zero_add]
    exact Nat.mod_eq_of_lt (by omega)
  · have : f + n - 1 = n + (f - 1) := by omega
    rw [this, Nat.add_mod_left]
    exact Nat.mod_eq_of_lt (by omega)

theorem right_eq_iff (n i f : Nat) (hn : 2 ≤ n) (hi : i < n) (hf : f < n) :
    (i + 1) % n = f ↔ i = (f + n - 1) % n := by
  rw [succ_mod_eq n i hi, pred_mod_eq n f hf]
  split_ifs <;> omega

theorem filter_length_two (l : List Nat) (p : Nat → Bool) (a b : Nat) (hl : l.Nodup)
    (hab : a ≠ b) (h : ∀ x, (x ∈ l ∧ p x = true) ↔ (x = a ∨ x = b)) :
    (l.filter p).length = 2 := by
  have hnd : (l.filter p).Nodup := hl.filter _
  rw [← List.toFinset_card_of_nodup hnd]
  have : (l.filter p).toFinset = {a, b} := by
    ext x
    simp only [List.mem_toFinset, List.mem_filter, Finset.mem_insert, Finset.mem_singleton]
    exact h x
  rw [this]
  exact Finset.card_pair hab

theorem filter_length_le_two (l : List Nat) (p : Nat → Bool) (a b : Nat) (hl : l.Nodup)
    (h : ∀ x, p x = true → (x = a ∨ x = b)) :
    (l.filter p).length ≤ 2 := by
  have hnd : (l.filter p).Nodup := hl.filter _
  rw [← List.toFinset_card_of_nodup hnd]
  have hsub : (l.filter p).toFinset ⊆ {a, b} := by
    intro x hx
    simp only [List.mem_toFinset, List.mem_filter] at hx
    simp only [Finset.mem_insert, Finset.mem_singleton]
    exact h x hx.2
  exact le_trans (Finset.card_le_card hsub) Finset.card_le_two

theorem filter_length_le_one (l : List Nat) (p : Nat → Bool) (hl : l.Nodup)
    (h : ∀ x y, p x = true → p y = true → x = y) :
    (l.filter p).length ≤ 1 := by
  have hnd : (l.filter p).Nodup := hl.filter _
  rcases hfl : l.filter p with _ | ⟨x, _ | ⟨y, rest⟩⟩
  · simp
  · simp
  · exfalso
    have hx : x ∈ l.filter p := by rw [hfl]; simp
    have hy : y ∈ l.filter p := by rw [hfl]; simp
    have hxy : x = y := h x y (List.mem_filter.1 hx).2 (List.mem_filter.1 hy).2
    rw [hfl] at hnd
    subst hxy
    simp at hnd

/-- C3. Topology correctness: for every `n ≥ 2` (in particular the program's
`numPhilosophers = 5`) `main` builds `n` philosophers, philosopher `i` has id
`i`, left fork `i` and right fork `(i+1) mod n`, its two forks are distinct,
and fork `f` is referenced by exactly two philosophers: `f` as its left fork
and `(f-1) mod n` as its right fork. -/
theorem topology_correct (n : Nat) (hn : 2 ≤ n) :
    (philosophers n).length = n ∧
    (∀ i, i < n → (philosophers n)[i]? =
      some { id := i, leftFork := i, rightFork := (i + 1) % n }) ∧
    (∀ p, p ∈ philosophers n → p.leftFork ≠ p.rightFork) ∧
    (∀ f, f < n → ∀ p, p ∈ philosophers n →
      ((p.leftFork = f ↔ p.id = f) ∧ (p.rightFork = f ↔ p.id = (f + n - 1) % n))) ∧
    (∀ f, f < n → f ≠ (f + n - 1) % n ∧ (f + n - 1) % n < n) ∧
    (∀ f, f < n →
      ((philosophers n).filter
        (fun p => decide (p.leftFork = f ∨ p.rightFork = f))).length = 2) := by
  have hpred : ∀ f, f < n → f ≠ (f + n - 1) % n ∧ (f + n - 1) % n < n := by
    intro f hf
    rw [pred_mod_eq n f hf]
    split_ifs <;> omega
  refine ⟨by simp [philosophers], ?_, ?_, ?_, hpred, ?_⟩
  · intro i hi
    exact philosophers_get n i hi
  · intro p hp
    simp only [philosophers, List.mem_map, List.mem_range] at hp
    obtain ⟨i, hi, rfl⟩ := hp
    exact Ne.symm (succ_mod_ne n i hn hi)
  · intro f hf p hp
    simp only [philosophers, List.mem_map, List.mem_range] at hp
    obtain ⟨i, hi, rfl⟩ := hp
    exact ⟨Iff.rfl, right_eq_iff n i f hn hi hf⟩
  · intro f hf
    simp only [philosophers, List.filter_map, List.length_map]
    refine filter_length_two (List.range n) _ f ((f + n - 1) % n) (List.nodup_range n)
      (hpred f hf).1 ?_
    intro x
    simp only [List.mem_range, Function.comp, mkPhilosopher, decide_eq_true_eq]
    constructor
    · rintro ⟨hx, h1 | h1⟩
      · exact Or.inl h1
      · exact Or.inr ((right_eq_iff n x f hn hx hf).1 h1)
    · rintro (h1 | h1)
      · subst h1; exact ⟨hf, Or.inl rfl⟩
      · have hx : x < n := by rw [h1]; exact (hpred f hf).2
        exact ⟨hx, Or.inr ((right_eq_iff n x f hn hx hf).2 h1)⟩

/-- Witness of `topology_correct` at the program's `numPhilosophers = 5`:
fork 0 is the left fork of philosopher 0 and the right fork of philosopher 4. -/
theorem topology_correct_witness :
    2 ≤ numPhilosophers ∧
    (philosophers numPhilosophers)[4]? = some { id := 4, leftFork := 4, rightFork := 0 } ∧
    ((philosophers numPhilosophers).filter
      (fun p => decide (p.leftFork = 0 ∨ p.rightFork = 0))).length = 2 :=
  ⟨by decide,
    (topology_correct numPhilosophers (by decide)).2.1 4 (by decide),
    (topology_correct numPhilosophers (by decide)).2.2.2.2.2 0 (by decide)⟩

/-! ### Mutual exclusion and clean shutdown -/

theorem holds_bound (n i f : Nat) (s : State) (h : Inv n s) (hh : s.holds i f = true) :
    i < n ∧ (f = i ∨ f = (i + 1) % n) := by
  have hheld := (h.held i f).1 hh
  have hi : i < n := by
    by_contra hge
    rw [h.idle i (by omega)] at hheld
    exact hheld
  refine ⟨hi, ?_⟩
  cases hpc : s.pc i <;> rw [hpc] at hheld <;>
    simp only [heldAt, firstFork, mkPhilosopher] at hheld
  case lockSecond => split_ifs at hheld <;> tauto
  case eating => exact hheld
  case unlockLeft => exact hheld
  case unlockRight => exact Or.inr hheld

/-- C4. Mutual exclusion: in every reachable state each fork is held by at
most one philosopher (the number of holders of a fork never exceeds 1, and the
mutex is locked exactly when the fork has a holder), and a philosopher in its
eating phase holds both its left and its right fork. -/
theorem mutual_exclusion (n : Nat) (s : State) (hn : 2 ≤ n) (hr : Reachable n s) :
    (∀ f, ((List.range n).filter (fun i => s.holds i f)).length ≤ 1) ∧
    (∀ i j f, s.holds i f = true → s.holds j f = true → i = j) ∧
    (∀ f, s.locked f = true ↔ ∃ i, i < n ∧ s.holds i f = true) ∧
    (∀ i, i < n → s.pc i = PC.eating →
      s.holds i (mkPhilosopher n i).leftFork = true ∧
      s.holds i (mkPhilosopher n i).rightFork = true) := by
  have h := inv_reachable n s hn hr
  refine ⟨?_, h.unique, ?_, ?_⟩
  · intro f
    exact filter_length_le_one _ _ (List.nodup_range n) (fun x y hx hy => h.unique x y f hx hy)
  · intro f
    rw [h.lockedIff f]
    constructor
    · rintro ⟨i, hi⟩
      exact ⟨i, (holds_bound n i f s h hi).1, hi⟩
    · rintro ⟨i, _, hi⟩
      exact ⟨i, hi⟩
  · intro i _ hpc
    constructor
    · exact (h.held i _).2 (by simp [hpc, heldAt, mkPhilosopher])
    · exact (h.held i _).2 (by simp [hpc, heldAt, mkPhilosopher])

/-- Witness of `mutual_exclusion` at `sampleState`, where fork 2 is held by
philosopher 1 while philosopher 2 waits for it. -/
theorem mutual_exclusion_witness :
    2 ≤ numPhilosophers ∧ Reachable numPhilosophers sampleState ∧
    sampleState.holds 1 2 = true ∧
    ((List.range numPhilosophers).filter (fun i => sampleState.holds i 2)).length ≤ 1 :=
  ⟨by decide, sampleState_reachable, rfl,
    (mutual_exclusion numPhilosophers sampleState (by decide) sampleState_reachable).1 2⟩

/-- C5. Clean shutdown: in every reachable state a philosopher holds only forks
it references (so at most two), it holds none at the top of the loop of `dine`
nor once stopped, the last `Unlock` of `eat` leaves it at the top of the loop
with no fork, and when all philosophers have stopped every fork is free. -/
theorem clean_shutdown (n : Nat) (s : State) (hn : 2 ≤ n) (hr : Reachable n s) :
    (∀ i f, s.holds i f = true →
      i < n ∧ (f = (mkPhilosopher n i).leftFork ∨ f = (mkPhilosopher n i).rightFork)) ∧
    (∀ i, ((List.range n).filter (fun f => s.holds i f)).length ≤ 2) ∧
    (∀ i, s.pc i = PC.top → ∀ f, s.holds i f = false) ∧
    (∀ i, s.pc i = PC.stopped → ∀ f, s.holds i f = false) ∧
    (∀ i t, step n s (Actor.philosopher i) = some t → s.pc i = PC.unlockRight →
      t.pc i = PC.top ∧ ∀ f, t.holds i f = false) ∧
    (∀ i t, step n s (Actor.philosopher i) = some t → t.pc i = PC.stopped →
      ∀ f, t.holds i f = false) ∧
    ((∀ i, i < n → s.pc i = PC.stopped) → ∀ f, s.locked f = false) := by
  have h := inv_reachable n s hn hr
  have hnone : ∀ (u : State), Inv n u → ∀ i c, u.pc i = c → (∀ f, ¬ heldAt n i c f) →
      ∀ f, u.holds i f = false := by
    intro u hu i c hc hno f
    have := (hu.held i f).not
    rw [hc] at this
    simpa using this.2 (hno f)
  refine ⟨fun i f hh => holds_bound n i f s h hh, ?_, ?_, ?_, ?_, ?_, ?_⟩
  · intro i
    exact filter_length_le_two _ _ i ((i + 1) % n) (List.nodup_range n)
      (fun f hf => (holds_bound n i f s h hf).2)
  · intro i hpc
    exact hnone s h i _ hpc (by simp [heldAt])
  · intro i hpc
    exact hnone s h i _ hpc (by simp [heldAt])
  · intro i t hs hpc
    have ht := inv_step n s t _ hn h hs
    have hi : i < n := by
      by_contra hge
      rw [step_philosopher_none n i s (by omega)] at hs
      cases hs
    rw [step_philosopher n i s hi] at hs
    have hp := philStep_pc _ s t hs
    have hid : (mkPhilosopher n i).id = i := rfl
    rw [hid] at hp
    have htpc : t.pc i = PC.top := by
      rcases hp with c | c | c | c | c | c | c | c <;> simp_all
    exact ⟨htpc, hnone t ht i _ htpc (by simp [heldAt])⟩
  · intro i t hs hpc
    have ht := inv_step n s t _ hn h hs
    exact hnone t ht i _ hpc (by simp [heldAt])
  · intro hall f
    by_contra hl
    have hl1 : s.locked f = true := by simpa using hl
    obtain ⟨i, hi⟩ := (h.lockedIff f).1 hl1
    have hin := (holds_bound n i f s h hi).1
    have := hnone s h i _ (hall i hin) (by simp [heldAt]) f
    rw [this] at hi
    cases hi

/-- Witness of `clean_shutdown` at `sampleState`: philosopher 3 holds fork 4,
its right fork, and philosopher 2, which holds nothing, is not at the top. -/
theorem clean_shutdown_witness :
    2 ≤ numPhilosophers ∧ Reachable numPhilosophers sampleState ∧
    sampleState.holds 3 4 = true ∧
    (3 < numPhilosophers ∧
      (4 = (mkPhilosopher numPhilosophers 3).leftFork ∨
       4 = (mkPhilosopher numPhilosophers 3).rightFork)) :=
  ⟨by decide, sampleState_reachable, rfl,
    (clean_shutdown numPhilosophers sampleState (by decide) sampleState_reachable).1 3 4 rfl⟩

/-! ### Ring size -/

/-- C6, counterexample. A ring of size 1 is not rejected: the loop of `main`
builds one philosopher whose left and right fork are the same fork 0, the
simulation runs (that philosopher takes its first step), and after three
steps it has locked fork 0 and stands at its second `Lock`. -/
theorem config_error_counterexample :
    philosophers 1 = [{ id := 0, leftFork := 0, rightFork := 0 }] ∧
    (step 1 State.init (Actor.philosopher 0)).isSome = true ∧
    (run 1 State.init
        [Actor.philosopher 0, Actor.philosopher 0, Actor.philosopher 0]).map
      (fun s => (s.pc 0, s.holds 0 0)) = some (PC.lockSecond, true) := by
  refine ⟨rfl, rfl, rfl⟩

/-- C6, amended. The topology construction of `main` validates nothing at run
time: for every ring size `n ≥ 1`, also `n = 1`, it builds `n` philosophers,
philosopher `i` having left fork `i` and right fork `(i+1) mod n`, and every
one of them can start (its first step from the initial state begins its
thinking phase); for `n = 1` the philosopher built has the same fork as left
and right. The program fixes `n = numPhilosophers = 5`. -/
theorem no_config_error (n : Nat) (hn : 1 ≤ n) :
    (philosophers n).length = n ∧
    (∀ i, i < n → (philosophers n)[i]? =
      some { id := i, leftFork := i, rightFork := (i + 1) % n }) ∧
    (∀ i, i < n → ∃ t, step n State.init (Actor.philosopher i) = some t ∧
      t.pc i = PC.thinking) ∧
    (n = 1 → ∀ p, p ∈ philosophers n → p.leftFork = p.rightFork) ∧
    numPhilosophers = 5 := by
  refine ⟨by simp [philosophers], fun i hi => philosophers_get n i hi, ?_, ?_, rfl⟩
  · intro i hi
    refine ⟨State.init.goto i PC.thinking, ?_, by simp⟩
    rw [step_philosopher n i State.init hi]
    simp [philStep, State.init, mkPhilosopher]
  · intro h1 p hp
    subst h1
    simp only [philosophers, List.mem_map, List.mem_range] at hp
    obtain ⟨i, hi, rfl⟩ := hp
    have h0 : i = 0 := by omega
    subst h0
    rfl

/-- Witness of `no_config_error` at ring size 1: one philosopher is built and
it starts thinking. -/
theorem no_config_error_witness :
    1 ≤ 1 ∧ (philosophers 1).length = 1 ∧
    ∃ t, step 1 State.init (Actor.philosopher 0) = some t ∧ t.pc 0 = PC.thinking :=
  ⟨by decide, (no_config_error 1 (by decide)).1,
    (no_config_error 1 (by decide)).2.2.1 0 (by decide)⟩

/-! ### Stop signal -/

/-- C7, counterexample. In the program's ring of five there is a reachable
state in which `done` is closed while philosopher 0 is thinking; when it
finishes thinking it does not stop: it goes on to the first `Lock` of `eat`
and then locks fork 0. -/
theorem stop_check_counterexample :
    ∃ s t u, Reachable numPhilosophers s ∧ s.done = true ∧ s.pc 0 = PC.thinking ∧
      step numPhilosophers s (Actor.philosopher 0) = some t ∧ t.pc 0 = PC.lockFirst ∧
      step numPhilosophers t (Actor.philosopher 0) = some u ∧ u.pc 0 = PC.lockSecond ∧
      u.holds 0 0 = true ∧ u.done = true :=
  ⟨{ State.init.goto 0 PC.thinking with done := true },
    ({ State.init.goto 0 PC.thinking with done := true } : State).goto 0 PC.lockFirst,
    ((({ State.init.goto 0 PC.thinking with done := true } : State).goto 0
      PC.lockFirst).acquire 0 0).goto 0 PC.lockSecond,
    Reachable.step Actor.controller
      (Reachable.step (Actor.philosopher 0) Reachable.init rfl) rfl,
    rfl, rfl, rfl, rfl, rfl, rfl, rfl, rfl⟩

/-- C7, amended. The stop signal is checked at the top of the loop of `dine`,
before the thinking phase: a philosopher at the top with `done` closed stops
without touching any fork, a philosopher at the top with `done` open starts
thinking, and a philosopher that is thinking always goes on to the first
`Lock` of `eat`, whether or not `done` has been closed meanwhile; the stopped
state is entered from the top of the loop only. -/
theorem stop_check_at_top (n i : Nat) (s : State) (hi : i < n) :
    (s.pc i = PC.top → s.done = true →
      ∃ t, step n s (Actor.philosopher i) = some t ∧ t.pc i = PC.stopped ∧
        t.holds = s.holds ∧ t.locked = s.locked) ∧
    (s.pc i = PC.top → s.done = false →
      ∃ t, step n s (Actor.philosopher i) = some t ∧ t.pc i = PC.thinking ∧
        t.holds = s.holds ∧ t.locked = s.locked) ∧
    (s.pc i = PC.thinking →
      ∃ t, step n s (Actor.philosopher i) = some t ∧ t.pc i = PC.lockFirst ∧
        t.holds = s.holds ∧ t.locked = s.locked ∧ t.done = s.done) ∧
    (∀ t, step n s (Actor.philosopher i) = some t → t.pc i = PC.stopped →
      s.pc i = PC.top ∧ s.done = true) := by
  have hid : (mkPhilosopher n i).id = i := rfl
  refine ⟨?_, ?_, ?_, ?_⟩
  · intro hpc hd
    refine ⟨s.goto i PC.stopped, ?_, by simp, rfl, rfl⟩
    rw [step_philosopher n i s hi]
    simp [philStep, hid, hpc, hd]
  · intro hpc hd
    refine ⟨s.goto i PC.thinking, ?_, by simp, rfl, rfl⟩
    rw [step_philosopher n i s hi]
    simp [philStep, hid, hpc, hd]
  · intro hpc
    refine ⟨s.goto i PC.lockFirst, ?_, by simp, rfl, rfl, rfl⟩
    rw [step_philosopher n i s hi]
    simp [philStep, hid, hpc]
  · intro t hs ht
    rw [step_philosopher n i s hi] at hs
    have hp := philStep_pc _ s t hs
    rw [hid] at hp
    rcases hp with c | c | c | c | c | c | c | c <;> simp_all

/-- Witness of `stop_check_at_top`: in `sampleState`, where `done` is closed,
philosopher 0 of the ring of five is not at the top of the loop; in the
initial state it is, and it starts thinking. -/
theorem stop_check_at_top_witness :
    0 < numPhilosophers ∧
    ∃ t, step numPhilosophers State.init (Actor.philosopher 0) = some t ∧
      t.pc 0 = PC.thinking ∧ t.holds = State.init.holds ∧ t.locked = State.init.locked :=
  ⟨by decide, (stop_check_at_top numPhilosophers 0 State.init (by decide)).2.1 rfl rfl⟩

theorem philStep_eats (p : Philosopher) (s t : State) (hs : philStep p s = some t) :
    t.eatsAfterStop p.id =
      if s.done = true ∧ s.pc p.id = PC.lockSecond then s.eatsAfterStop p.id + 1
      else s.eatsAfterStop p.id := by
  unfold philStep at hs
  cases hpc : s.pc p.id <;> rw [hpc] at hs <;> simp only at hs
  case top => split_ifs at hs <;> cases hs <;> simp
  case thinking => cases hs; simp
  case lockFirst =>
    unfold lockFork at hs
    split_ifs at hs
    · cases hs
    · cases hs; simp
  case lockSecond =>
    unfold lockFork at hs
    split_ifs at hs
    · cases hs
    · cases hs; simp [countEat_eats]
  case eating => cases hs; simp
  case unlockLeft =>
    unfold unlockFork at hs
    split_ifs at hs
    · cases hs; simp
    · cases hs
  case unlockRight =>
    unfold unlockFork at hs
    split_ifs at hs
    · cases hs; simp
    · cases hs
  case stopped => cases hs

/-- C8. Bounded shutdown latency in cycles: in every reachable state the
number of eating phases a philosopher has entered while `done` is closed is at
most 1 (the counter goes up exactly when the second `Lock` of `eat` succeeds
with `done` closed), and once `done` is closed no philosopher starts a new
thinking phase. -/
theorem bounded_shutdown (n : Nat) (s : State) (hn : 2 ≤ n) (hr : Reachable n s) :
    (∀ i, s.eatsAfterStop i ≤ 1) ∧
    (∀ i t, step n s (Actor.philosopher i) = some t →
      t.eatsAfterStop i =
        if s.done = true ∧ s.pc i = PC.lockSecond then s.eatsAfterStop i + 1
        else s.eatsAfterStop i) ∧
    (∀ i t, s.done = true → step n s (Actor.philosopher i) = some t →
      t.pc i ≠ PC.thinking) := by
  have h := inv_reachable n s hn hr
  refine ⟨h.eats, ?_, ?_⟩
  · intro i t hs
    have hi : i < n := by
      by_contra hge
      rw [step_philosopher_none n i s (by omega)] at hs
      cases hs
    rw [step_philosopher n i s hi] at hs
    exact philStep_eats (mkPhilosopher n i) s t hs
  · intro i t hd hs
    have hi : i < n := by
      by_contra hge
      rw [step_philosopher_none n i s (by omega)] at hs
      cases hs
    rw [step_philosopher n i s hi] at hs
    have hp := philStep_pc _ s t hs
    have hid : (mkPhilosopher n i).id = i := rfl
    rw [hid] at hp
    rcases hp with c | c | c | c | c | c | c | c <;> simp_all

/-- Witness of `bounded_shutdown`: from `sampleState`, where `done` is closed,
philosopher 0 takes its second fork and eats; that is its one eating phase
after the stop signal. -/
theorem bounded_shutdown_witness :
    2 ≤ numPhilosophers ∧
    (((sampleState.acquire 0 1).goto 0 PC.eating).countEat 0).eatsAfterStop 0 = 1 ∧
    (((sampleState.acquire 0 1).goto 0 PC.eating).countEat 0).eatsAfterStop 0 ≤ 1 :=
  ⟨by decide, rfl,
    (bounded_shutdown numPhilosophers (((sampleState.acquire 0 1).goto 0 PC.eating).countEat 0)
      (by decide)
      (Reachable.step (Actor.philosopher 0) sampleState_reachable rfl)).1 0⟩

/-! ### Acquisition order along the edges of the ring -/

theorem lockPosition_eq (p : Philosopher) (f : Nat) :
    lockPosition p f =
      if firstFork p = f then 0 else if secondFork p = f then 1 else 2 := by
  unfold lockPosition lockOrder
  by_cases h1 : firstFork p = f
  · simp [List.indexOf_cons, h1]
  · by_cases h2 : secondFork p = f
    · simp [List.indexOf_cons, h1, h2]
    · simp [List.indexOf_cons, h1, h2]

/-- C9, counterexample. In the program's ring of five the fork shared by
philosopher 4 and philosopher 0 (fork 0, the wrap-around edge) is the second
fork philosopher 4 locks and the first fork philosopher 0 locks. -/
theorem edge_order_counterexample :
    sharedFork numPhilosophers 4 = 0 ∧ (4 + 1) % numPhilosophers = 0 ∧
    lockPosition (mkPhilosopher numPhilosophers 4) (sharedFork numPhilosophers 4) = 1 ∧
    lockPosition (mkPhilosopher numPhilosophers ((4 + 1) % numPhilosophers))
      (sharedFork numPhilosophers 4) = 0 := by
  decide

/-- C9, amended. For every `n ≥ 2` and every philosopher `i` of the ring, the
fork shared with the successor `(i+1) mod n` has the same position in both
acquisition sequences on every edge but the wrap-around edge of a ring of odd
size: it does when `i + 1 < n` and, for the edge between `n-1` and `0`, when
`n` is even. When `n` is odd (as the program's 5), fork 0 is locked second by
philosopher `n-1` and first by philosopher 0. -/
theorem edge_order (n i : Nat) (hn : 2 ≤ n) (hi : i < n) :
    ((i + 1 < n ∨ n % 2 = 0) →
      lockPosition (mkPhilosopher n i) (sharedFork n i) =
        lockPosition (mkPhilosopher n ((i + 1) % n)) (sharedFork n i)) ∧
    ((i + 1 = n ∧ n % 2 = 1) →
      sharedFork n i = 0 ∧
      lockPosition (mkPhilosopher n i) (sharedFork n i) = 1 ∧
      lockPosition (mkPhilosopher n ((i + 1) % n)) (sharedFork n i) = 0) := by
  have hne := succ_mod_ne n i hn hi
  by_cases h : i + 1 < n
  · have hne2 := succ_mod_ne n (i + 1) hn h
    rw [Nat.mod_eq_of_lt h] at hne
    constructor
    · intro _
      simp only [lockPosition_eq, sharedFork, firstFork, secondFork, mkPhilosopher,
        Nat.mod_eq_of_lt h]
      split_ifs <;> omega
    · rintro ⟨h1, _⟩
      omega
  · have h1 : i + 1 = n := by omega
    have h0 : (1 : Nat) % n = 1 := Nat.mod_eq_of_lt (by omega)
    constructor
    · rintro (h2 | h2)
      · omega
      · simp only [lockPosition_eq, sharedFork, firstFork, secondFork, mkPhilosopher, h1,
          Nat.mod_self, Nat.zero_add, h0]
        split_ifs <;> omega
    · rintro ⟨_, h2⟩
      simp only [lockPosition_eq, sharedFork, firstFork, secondFork, mkPhilosopher, h1,
        Nat.mod_self, Nat.zero_add, h0]
      refine ⟨trivial, ?_, ?_⟩ <;> split_ifs <;> omega

/-- Witness of `edge_order` in the program's ring of five: on the edge between
philosophers 1 and 2 the shared fork 2 is the first fork of both. -/
theorem edge_order_witness :
    2 ≤ numPhilosophers ∧ 1 < numPhilosophers ∧ 1 + 1 < numPhilosophers ∧
    lockPosition (mkPhilosopher numPhilosophers 1) (sharedFork numPhilosophers 1) =
      lockPosition (mkPhilosopher numPhilosophers ((1 + 1) % numPhilosophers))
        (sharedFork numPhilosophers 1) :=
  ⟨by decide, by decide, by decide,
    (edge_order numPhilosophers 1 (by decide) (by decide)).1 (Or.inl (by decide))⟩

end Dining

namespace Dominoes

/-! ### Chunked search -/

theorem existingMap_foldl (l : List Domino) (m : Domino → Bool) (d : Domino) :
    l.foldl (fun m domino => Function.update m domino true) m d = (m d || decide (d ∈ l)) := by
  induction l generalizing m with
  | nil => simp
  | cons a l ih =>
    rw [List.foldl_cons, ih]
    by_cases h : d = a
    · subst h; simp
    · simp [Function.update_apply, h]

theorem existingMap_eq (existingSet : List Domino) (d : Domino) :
    existingMap existingSet d = decide (d ∈ existingSet) := by
  simp [existingMap, existingMap_foldl]

theorem foldl_append_if (p : Domino → Bool) (l acc : List Domino) :
    l.foldl (fun out d => if p d then out ++ [d] else out) acc = acc ++ l.filter p := by
  induction l generalizing acc with
  | nil => simp
  | cons a l ih =>
    rw [List.foldl_cons, ih]
    by_cases h : p a = true
    · simp [h, List.filter_cons]
    · simp [h, List.filter_cons]

theorem findMissingDominos_eq (existingSet fullSet : List Domino) :
    findMissingDominos existingSet fullSet =
      fullSet.filter (fun d => !(existingMap existingSet d)) := by
  unfold findMissingDominos
  have h := foldl_append_if (fun d => !(existingMap existingSet d)) fullSet []
  simpa using h

theorem found_eq (existingSet : List Domino) (d : Domino) :
    Task1.found existingSet d = existingMap existingSet d := by
  rw [existingMap_eq]
  unfold Task1.found
  induction existingSet with
  | nil => simp
  | cons a l ih =>
    rw [List.any_cons, ih]
    cases a with
    | mk al ar =>
      cases d with
      | mk dl dr =>
        by_cases h1 : al = dl <;> by_cases h2 : ar = dr <;>
          simp [h1, h2, eq_comm]

theorem take_append_slice (l : List Domino) (a b : Nat) (h : a ≤ b) :
    l.take a ++ (l.take b).drop a = l.take b := by
  have h1 : (l.take b).take a = l.take a := by
    rw [List.take_take, Nat.min_eq_left h]
  rw [← h1]
  exact List.take_append_drop a (l.take b)

theorem slice_some (l : List Domino) (a b : Nat) (h1 : a ≤ b) (h2 : b ≤ l.length) :
    slice l a b = some ((l.take b).drop a) := by
  simp [slice, h1, h2]

theorem owners_three (len k : Nat) (hk : k < len) :
    (owners len Task1.numGoroutines k).length = 1 := by
  have hc : 3 * (len / 3) ≤ len := Nat.mul_div_le len 3
  unfold owners startIndex endIndex Task1.numGoroutines
  rw [show List.range 3 = [0, 1, 2] from rfl]
  generalize len / 3 = c at hc
  simp only [List.filter_cons, List.filter_nil]
  by_cases h1 : k < c
  · have e1 : ¬ (1 * c ≤ k) := by omega
    have e2 : ¬ (2 * c ≤ k) := by omega
    simp [h1, e1, e2]
  · by_cases h2 : k < 2 * c
    · have e1 : 1 * c ≤ k := by omega
      have e0 : c ≤ k := by omega
      have e2 : ¬ (2 * c ≤ k) := by omega
      simp [h1, h2, e0, e1, e2]
    · have e2 : 2 * c ≤ k := by omega
      simp [h1, h2, e2, hk]

theorem owners_four (len k : Nat) (hk : k < len) :
    (owners len Task2.numGoroutines k).length = 1 := by
  have hc : 4 * (len / 4) ≤ len := Nat.mul_div_le len 4
  unfold owners startIndex endIndex Task2.numGoroutines
  rw [show List.range 4 = [0, 1, 2, 3] from rfl]
  generalize len / 4 = c at hc
  simp only [List.filter_cons, List.filter_nil]
  by_cases h1 : k < c
  · have e1 : ¬ (1 * c ≤ k) := by omega
    have e2 : ¬ (2 * c ≤ k) := by omega
    have e3 : ¬ (3 * c ≤ k) := by omega
    simp [h1, e1, e2, e3]
  · by_cases h2 : k < 2 * c
    · have e1 : 1 * c ≤ k := by omega
      have e0 : c ≤ k := by omega
      have e2 : ¬ (2 * c ≤ k) := by omega
      have e3 : ¬ (3 * c ≤ k) := by omega
      simp [h1, h2, e0, e1, e2, e3]
    · by_cases h3 : k < 3 * c
      · have e2 : 2 * c ≤ k := by omega
        have e3 : ¬ (3 * c ≤ k) := by omega
        simp [h1, h2, h3, e2, e3]
      · have e3 : 3 * c ≤ k := by omega
        simp [h1, h2, h3, e3, hk]

theorem filter_chunks_three (p : Domino → Bool) (l : List Domino) (c : Nat) :
    ((l.take (1 * c)).drop (0 * c)).filter p ++
      (((l.take (2 * c)).drop (1 * c)).filter p ++
        ((l.take l.length).drop (2 * c)).filter p) = l.filter p := by
  rw [← List.filter_append, ← List.filter_append, List.take_length]
  congr 1
  have h1 := take_append_slice l (1 * c) (2 * c) (by omega)
  simp only [Nat.zero_mul, List.drop_zero]
  rw [← List.append_assoc, h1]
  exact List.take_append_drop (2 * c) l

theorem filter_chunks_four (p : Domino → Bool) (l : List Domino) (c : Nat) :
    ((l.take (1 * c)).drop (0 * c)).filter p ++
      (((l.take (2 * c)).drop (1 * c)).filter p ++
        (((l.take (3 * c)).drop (2 * c)).filter p ++
          ((l.take l.length).drop (3 * c)).filter p)) = l.filter p := by
  rw [← List.filter_append, ← List.filter_append, ← List.filter_append, List.take_length]
  congr 1
  have h1 := take_append_slice l (1 * c) (2 * c) (by omega)
  have h2 := take_append_slice l (2 * c) (3 * c) (by omega)
  simp only [Nat.zero_mul, List.drop_zero]
  rw [← List.append_assoc, ← List.append_assoc, h1, h2]
  exact List.take_append_drop (3 * c) l

theorem task1_sent (existingSet fullSet : List Domino) :
    (List.range Task1.numGoroutines).mapM (Task1.worker existingSet fullSet) =
      some [((fullSet.take (1 * (fullSet.length / 3))).drop (0 * (fullSet.length / 3))).filter
              (fun d => !(existingMap existingSet d)),
            ((fullSet.take (2 * (fullSet.length / 3))).drop (1 * (fullSet.length / 3))).filter
              (fun d => !(existingMap existingSet d)),
            ((fullSet.take fullSet.length).drop (2 * (fullSet.length / 3))).filter
              (fun d => !(existingMap existingSet d))] := by
  have hc : 3 * (fullSet.length / 3) ≤ fullSet.length := Nat.mul_div_le _ 3
  have w : ∀ i a b, a ≤ b → b ≤ fullSet.length →
      startIndex fullSet.length Task1.numGoroutines i = a →
      endIndex fullSet.length Task1.numGoroutines i = b →
      Task1.worker existingSet fullSet i =
        some (((fullSet.take b).drop a).filter (fun d => !(existingMap existingSet d))) := by
    intro i a b hab hb ha hb2
    unfold Task1.worker
    rw [ha, hb2, slice_some fullSet a b hab hb, Option.map_some']
    congr 1
    have h := foldl_append_if (fun d => !(Task1.found existingSet d)) ((fullSet.take b).drop a) []
    rw [List.nil_append] at h
    rw [h]
    congr 1
    funext d
    rw [found_eq]
  have w0 := w 0 (0 * (fullSet.length / 3)) (1 * (fullSet.length / 3)) (by omega) (by omega)
    (by simp [startIndex, Task1.numGoroutines]) (by simp [endIndex, Task1.numGoroutines])
  have w1 := w 1 (1 * (fullSet.length / 3)) (2 * (fullSet.length / 3)) (by omega) (by omega)
    (by simp [startIndex, Task1.numGoroutines]) (by simp [endIndex, Task1.numGoroutines])
  have w2 := w 2 (2 * (fullSet.length / 3)) fullSet.length (by omega) (by omega)
    (by simp [startIndex, Task1.numGoroutines]) (by simp [endIndex, Task1.numGoroutines])
  rw [show List.range Task1.numGoroutines = [0, 1, 2] from rfl]
  simp only [List.mapM_cons, List.mapM_nil, w0, w1, w2]
  rfl

theorem task2_sent (existingSet fullSet : List Domino) :
    (List.range Task2.numGoroutines).mapM (Task2.worker existingSet fullSet) =
      some [((fullSet.take (1 * (fullSet.length / 4))).drop (0 * (fullSet.length / 4))).filter
              (fun d => !(existingMap existingSet d)),
            ((fullSet.take (2 * (fullSet.length / 4))).drop (1 * (fullSet.length / 4))).filter
              (fun d => !(existingMap existingSet d)),
            ((fullSet.take (3 * (fullSet.length / 4))).drop (2 * (fullSet.length / 4))).filter
              (fun d => !(existingMap existingSet d)),
            ((fullSet.take fullSet.length).drop (3 * (fullSet.length / 4))).filter
              (fun d => !(existingMap existingSet d))] := by
  have hc : 4 * (fullSet.length / 4) ≤ fullSet.length := Nat.mul_div_le _ 4
  have w : ∀ i a b, a ≤ b → b ≤ fullSet.length →
      startIndex fullSet.length Task2.numGoroutines i = a →
      endIndex fullSet.length Task2.numGoroutines i = b →
      Task2.worker existingSet fullSet i =
        some (((fullSet.take b).drop a).filter (fun d => !(existingMap existingSet d))) := by
    intro i a b hab hb ha hb2
    unfold Task2.worker
    rw [ha, hb2, slice_some fullSet a b hab hb, Option.map_some', findMissingDominos_eq]
  have w0 := w 0 (0 * (fullSet.length / 4)) (1 * (fullSet.length / 4)) (by omega) (by omega)
    (by simp [startIndex, Task2.numGoroutines]) (by simp [endIndex, Task2.numGoroutines])
  have w1 := w 1 (1 * (fullSet.length / 4)) (2 * (fullSet.length / 4)) (by omega) (by omega)
    (by simp [startIndex, Task2.numGoroutines]) (by simp [endIndex, Task2.numGoroutines])
  have w2 := w 2 (2 * (fullSet.length / 4)) (3 * (fullSet.length / 4)) (by omega) (by omega)
    (by simp [startIndex, Task2.numGoroutines]) (by simp [endIndex, Task2.numGoroutines])
  have w3 := w 3 (3 * (fullSet.length / 4)) fullSet.length (by omega) (by omega)
    (by simp [startIndex, Task2.numGoroutines]) (by simp [endIndex, Task2.numGoroutines])
  rw [show List.range Task2.numGoroutines = [0, 1, 2, 3] from rfl]
  simp only [List.mapM_cons, List.mapM_nil, w0, w1, w2, w3]
  rfl

/-- With `maxValue = 1` the full set has three dominoes, fewer than the four
goroutines of 2task2.go: the chunk size is 0, the first three goroutines get an
empty range and the last one the whole set. -/
theorem task2_small_set :
    generateFullSet 1 =
      [{ Left := 0, Right := 0 }, { Left := 0, Right := 1 }, { Left := 1, Right := 1 }] ∧
    Task2.processWithConcurrency [{ Left := 0, Right := 1 }] 1 =
      some [[], [], [], [{ Left := 0, Right := 0 }, { Left := 1, Right := 1 }]] ∧
    findMissingDominos [{ Left := 0, Right := 1 }] (generateFullSet 1) =
      [{ Left := 0, Right := 0 }, { Left := 1, Right := 1 }] := by
  decide

/-- C10. Chunked search equals sequential search: for every `existingSet` and
every `maxValue`, in 2task1.go (three goroutines) and in 2task2.go (four), the
index ranges of the goroutines contain every index of the full set exactly
once, no slice expression is out of range, the dominoes the goroutines send
are, chunk after chunk, exactly `findMissingDominos existingSet
(generateFullSet maxValue)`, and so whatever order the channel delivers them
in, the collected dominoes are that list as a multiset. -/
theorem chunked_equals_sequential (existingSet : List Domino) (maxValue : Int) :
    (∀ k, k < (generateFullSet maxValue).length →
      (owners (generateFullSet maxValue).length Task1.numGoroutines k).length = 1 ∧
      (owners (generateFullSet maxValue).length Task2.numGoroutines k).length = 1) ∧
    (∃ sent, Task1.processWithConcurrency existingSet maxValue = some sent ∧
      sent.flatten = findMissingDominos existingSet (generateFullSet maxValue) ∧
      ∀ missingDominos, Collected sent missingDominos →
        Multiset.ofList missingDominos =
          Multiset.ofList (findMissingDominos existingSet (generateFullSet maxValue))) ∧
    (∃ sent, Task2.processWithConcurrency existingSet maxValue = some sent ∧
      sent.flatten = findMissingDominos existingSet (generateFullSet maxValue) ∧
      ∀ missingDominos, Collected sent missingDominos →
        Multiset.ofList missingDominos =
          Multiset.ofList (findMissingDominos existingSet (generateFullSet maxValue))) := by
  refine ⟨fun k hk => ⟨owners_three _ k hk, owners_four _ k hk⟩, ?_, ?_⟩
  · have hflat : [((generateFullSet maxValue).take
          (1 * ((generateFullSet maxValue).length / 3))).drop
            (0 * ((generateFullSet maxValue).length / 3)) |>.filter
              (fun d => !(existingMap existingSet d)),
        ((generateFullSet maxValue).take
          (2 * ((generateFullSet maxValue).length / 3))).drop
            (1 * ((generateFullSet maxValue).length / 3)) |>.filter
              (fun d => !(existingMap existingSet d)),
        ((generateFullSet maxValue).take (generateFullSet maxValue).length).drop
            (2 * ((generateFullSet maxValue).length / 3)) |>.filter
              (fun d => !(existingMap existingSet d))].flatten =
        findMissingDominos existingSet (generateFullSet maxValue) := by
      rw [findMissingDominos_eq]
      simp only [List.flatten_cons, List.flatten_nil, List.append_nil]
      exact filter_chunks_three _ _ _
    refine ⟨_, task1_sent existingSet (generateFullSet maxValue), hflat, ?_⟩
    intro missingDominos hcol
    unfold Collected at hcol
    rw [hflat] at hcol
    exact Multiset.coe_eq_coe.2 hcol
  · have hflat : [((generateFullSet maxValue).take
          (1 * ((generateFullSet maxValue).length / 4))).drop
            (0 * ((generateFullSet maxValue).length / 4)) |>.filter
              (fun d => !(existingMap existingSet d)),
        ((generateFullSet maxValue).take
          (2 * ((generateFullSet maxValue).length / 4))).drop
            (1 * ((generateFullSet maxValue).length / 4)) |>.filter
              (fun d => !(existingMap existingSet d)),
        ((generateFullSet maxValue).take
          (3 * ((generateFullSet maxValue).length / 4))).drop
            (2 * ((generateFullSet maxValue).length / 4)) |>.filter
              (fun d => !(existingMap existingSet d)),
        ((generateFullSet maxValue).take (generateFullSet maxValue).length).drop
            (3 * ((generateFullSet maxValue).length / 4)) |>.filter
              (fun d => !(existingMap existingSet d))].flatten =
        findMissingDominos existingSet (generateFullSet maxValue) := by
      rw [findMissingDominos_eq]
      simp only [List.flatten_cons, List.flatten_nil, List.append_nil]
      exact filter_chunks_four _ _ _
    refine ⟨_, task2_sent existingSet (generateFullSet maxValue), hflat, ?_⟩
    intro missingDominos hcol
    unfold Collected at hcol
    rw [hflat] at hcol
    exact Multiset.coe_eq_coe.2 hcol

end Dominoes
